import Mathlib

/-!
Verification of the serverless-genomics map-reduce orchestration core.

Shallow embedding of `src/serverlessgenomics/reducer/reduce_functions.py`
(partition balancer `distribute_indexes`, multipart-upload completion
`finish` / `complete_multipart`, key grouping `keys_by_fasta_split`) and of
`src/serverlessgenomics/mapping/alignment_mapper.py` (idempotent stage
functions `gem_indexer`, `align_mapper`, `index_correction`,
`filter_index_to_mpileup`).  Effectful Python code is embedded as pure
functions over explicit inputs (object-store existence predicate, external
tool exit status, filesystem action traces); a Python exception is `none`.
-/

set_option linter.unusedVariables false

namespace SG

/-! ## Partition Balancer (`distribute_indexes`, reduce_functions.py lines 85-156)

The counting phase (lines 109-130) folds every observed integer index into
the Python dict `count_indexes`; dict iteration order is insertion order,
i.e. order of first appearance in the concatenated record stream.
-/

/-- One step of `count_indexes[index] = count_indexes.get(index, 0) + 1`
on the association list that models the insertion-ordered dict. -/
def bumpCount : List (Nat × Nat) → Nat → List (Nat × Nat)
  | [], k => [(k, 1)]
  | (a, c) :: rest, k =>
      if a = k then (a, c + 1) :: rest else (a, c) :: bumpCount rest k

/-- The accumulated `count_indexes` mapping for a stream of observed
indexes, as an insertion-ordered association list. -/
def buildCounts (xs : List Nat) : List (Nat × Nat) :=
  xs.foldl bumpCount []

/-- Loop state of lines 138-147: the running accumulator `indexes`, the
remembered tentative range end `index` (`none` while the Python local is
still unassigned), and `workers_data`. -/
def diLoop (MAX : Nat) : List (Nat × Nat) → Nat × Option Nat × List Nat →
    Option (Nat × Option Nat × List Nat)
  | [], st => some st
  | (k, c) :: rest, (indexes, index, wd) =>
      if indexes + c < MAX then
        diLoop MAX rest (indexes + c, some k, wd)
      else
        match index with
        | none => none
        | some i => diLoop MAX rest (0, some i, wd ++ [i])

/-- The walk of lines 137-148 over a (nonempty) count mapping, including
the final `workers_data.append(key)` of the last iterated key; `none`
models the `NameError` raised when `index` is referenced unassigned. -/
def diWalk (MAX : Nat) (counts : List (Nat × Nat)) : Option (List Nat) :=
  match diLoop MAX counts (0, none, []) with
  | none => none
  | some st =>
      match counts.getLast? with
      | some kc => some (st.2.2 ++ [kc.1])
      | none => none

/-- Full `distribute_indexes`: each source key paired with the index
stream its structured query returns.  `MAX_INDEXES = 20_000_000` is
hardcoded (line 137).  With no source keys, `keys[0]` (line 99) raises;
with an empty count mapping the trailing `workers_data.append(key)`
appends the dangling counting-phase loop variable, which is the **last
source key string** (line 109), hence the `Sum.inr` boundary. -/
def distribute_indexes (srcs : List (String × List Nat)) :
    Option (List (Nat ⊕ String)) :=
  match srcs.getLast? with
  | none => none
  | some lastSrc =>
      let counts := buildCounts ((srcs.map Prod.snd).flatten)
      match diLoop 20000000 counts (0, none, []) with
      | none => none
      | some st =>
          match counts.getLast? with
          | some kc => some ((st.2.2 ++ [kc.1]).map Sum.inl)
          | none => some (st.2.2.map Sum.inl ++ [Sum.inr lastSrc.1])

/-- Modelled from the spec: the PartitionRange derivation is not under
`src/` (only `distribute_indexes`'s boundary list is); §4.3 says the
boundary list is "consumed together with the implicit start (previous
boundary + 1, or domain minimum for the first range)" to form closed
integer ranges (`reduce_function` queries `BETWEEN start AND end`,
inclusive). -/
def rangesOf (start : Nat) : List Nat → List (Nat × Nat)
  | [] => []
  | b :: rest => (start, b) :: rangesOf (b + 1) rest

/-- Total record count that falls inside a closed range, for a count
mapping. -/
def rangeCount (counts : List (Nat × Nat)) (r : Nat × Nat) : Nat :=
  ((counts.filter (fun kc => decide (r.1 ≤ kc.1 ∧ kc.1 ≤ r.2))).map
    Prod.snd).sum

/-! ## Multipart Upload Coordinator (`finish` lines 193-216,
`complete_multipart` lines 219-247)

A collected part record `{"PartNumber": …, "ETag": …, "mpu_id": …}`.
The observable effect of a completion call is the
`(key, upload_id, [(part_number, etag), …])` request it issues.
-/

/-- An UploadPart as returned by a Reduce Worker. -/
structure UploadPart where
  PartNumber : Nat
  ETag : String
  mpu_id : String
deriving DecidableEq

/-- The scan of lines 207-212 / 236-241: walk `parts`, collecting
`(PartNumber, ETag)` while `mpu_id` matches and counting `remove`;
`break` on the first mismatch. -/
def scanParts (mpu_id : String) : List UploadPart → List (Nat × String) × Nat
  | [] => ([], 0)
  | p :: ps =>
      if p.mpu_id = mpu_id then
        let r := scanParts mpu_id ps
        ((p.PartNumber, p.ETag) :: r.1, r.2 + 1)
      else ([], 0)

/-- `finish`: the single completion request issued for `mpu_id`. -/
def finish (key mpu_id : String) (parts : List UploadPart) :
    String × String × List (Nat × String) :=
  (key, mpu_id, (scanParts mpu_id parts).1)

/-- The `for key, mpu_id in zip(keys, mpu_ids)` loop of
`complete_multipart`: after each completion request the consumed prefix
is dropped (`parts = parts[remove:]`, line 247). -/
def cmLoop : List (String × String) → List UploadPart →
    List (String × String × List (Nat × String))
  | [], _ => []
  | km :: kms, parts =>
      let r := scanParts km.2 parts
      (km.1, km.2, r.1) :: cmLoop kms (parts.drop r.2)

/-- `complete_multipart`: the sequence of completion requests issued. -/
def complete_multipart (keys mpu_ids : List String) (parts : List UploadPart) :
    List (String × String × List (Nat × String)) :=
  cmLoop (keys.zip mpu_ids) parts

/-! ## Key grouping (`keys_by_fasta_split`, lines 250-267)

Keys are modelled as `List Char` so that Python's `str.split` (leftmost,
non-overlapping separator occurrences) can be embedded exactly.
-/

/-- Boolean prefix test on character lists. -/
def isPre : List Char → List Char → Bool
  | [], _ => true
  | _, [] => false
  | a :: as, b :: bs => a = b && isPre as bs

/-- Suffix after the leftmost occurrence of `sep`, or `none` when `sep`
does not occur. -/
def dropAfterFirst (sep : List Char) : List Char → Option (List Char)
  | [] => none
  | c :: rest =>
      if isPre sep (c :: rest) then some ((c :: rest).drop sep.length)
      else dropAfterFirst sep rest

/-- Iteration of `dropAfterFirst` with explicit fuel so the kernel can
evaluate it; each successful drop strictly shrinks the suffix (the
separators used here, `"/"` and `"fa"`, are nonempty), so fuel
`s.length` is always sufficient. -/
def pySplitLastF (sep : List Char) : Nat → List Char → List Char
  | 0, s => s
  | fuel + 1, s =>
      match dropAfterFirst sep s with
      | none => s
      | some rest => pySplitLastF sep fuel rest

/-- Python `s.split(sep)[-1]`: the suffix after the last separator
occurrence found by the leftmost non-overlapping scan (the whole string
when `sep` does not occur). -/
def pySplitLast (sep : List Char) (s : List Char) : List Char :=
  pySplitLastF sep s.length s

/-- `k.split("/")[-1]` then `.split("fa")[-1]` then `[0]` (lines
262-264); `none` models the `IndexError` of indexing an empty string. -/
def keyGroupId (k : List Char) : Option Char :=
  (pySplitLast ['f', 'a'] (pySplitLast ['/'] k)).head?

/-- `key_dict[str(fasta_split)].append(k)` on the insertion-ordered
`defaultdict(list)`. -/
def addToGroup : List (Char × List (List Char)) → Char → List Char →
    List (Char × List (List Char))
  | [], c, k => [(c, [k])]
  | (a, ks) :: rest, c, k =>
      if a = c then (a, ks ++ [k]) :: rest
      else (a, ks) :: addToGroup rest c k

/-- The `for k in keys` loop of `keys_by_fasta_split`. -/
def kbfsLoop : List (List Char) → List (Char × List (List Char)) →
    Option (List (Char × List (List Char)))
  | [], d => some d
  | k :: rest, d =>
      match keyGroupId k with
      | none => none
      | some c => kbfsLoop rest (addToGroup d c k)

/-- `keys_by_fasta_split`: the returned dict as an insertion-ordered
association list, or `none` when some key raises. -/
def keys_by_fasta_split (keys : List (List Char)) :
    Option (List (Char × List (List Char))) :=
  kbfsLoop keys []

/-! ## Chunk Stage Functions (alignment_mapper.py)

Each stage is embedded as a pure function of the object-store existence
predicate `ex` (a `head_object` that succeeds exactly on existing keys),
the external tool's exit status, and whether the tool produced its
output files; the observable result is whether the stage skipped and
which keys it uploaded.  A raised Python exception is `none`.
-/

/-- Storage-visible outcome of one stage invocation. -/
structure StageRun where
  skipped : Bool
  uploads : List String
deriving DecidableEq

/-- `map_index_key` (lines 113-120): `os.path.join` of relative
segments. -/
def map_index_key (tmp_pre run_id : String) (fastq_chunk_id fasta_chunk_id : Nat)
    (sra_accession : String) : String :=
  tmp_pre ++ "/" ++ run_id ++ "/gem-mapper/fq" ++ toString fastq_chunk_id ++
    "/fa" ++ toString fasta_chunk_id ++ "/" ++ sra_accession ++ "_map.index.txt.bz2"

/-- `filtered_map_key` (lines 121-128). -/
def filtered_map_key (tmp_pre run_id : String) (fastq_chunk_id fasta_chunk_id : Nat)
    (sra_accession : String) : String :=
  tmp_pre ++ "/" ++ run_id ++ "/gem-mapper/fq" ++ toString fastq_chunk_id ++
    "/fa" ++ toString fasta_chunk_id ++ "/" ++ sra_accession ++ "_filt_wline_no.map.bz2"

/-- `align_mapper` (lines 94-231).  Lines 131-139: probe `map_index_key`
then `filtered_map_key`; a missing key raises `StorageNoSuchKeyError`,
caught to fall through to the compute path.  The compute path runs the
map-index-and-filter script (line 185) and then uses its output files;
`rc` is the script's exit status, which the code never inspects, and
`produced` says whether the script produced its two output files (when
it did not, the `shutil.move` of line 190 raises, modelled `none`).
Both artifacts are uploaded (lines 209, 217). -/
def align_mapper (ex : String → Bool) (tmp_pre run_id sra_accession : String)
    (fasta_chunk_id fastq_chunk_id : Nat) (rc : Nat) (produced : Bool) :
    Option StageRun :=
  let mik := map_index_key tmp_pre run_id fastq_chunk_id fasta_chunk_id sra_accession
  let fmk := filtered_map_key tmp_pre run_id fastq_chunk_id fasta_chunk_id sra_accession
  if ex mik then
    if ex fmk then some ⟨true, []⟩
    else if produced then some ⟨false, [mik, fmk]⟩ else none
  else if produced then some ⟨false, [mik, fmk]⟩ else none

/-- `gem_indexer` (lines 27-91): skip when `gem/{id}.gem` exists
(lines 37-42); otherwise run `gem-indexer` and
`assert out.returncode == 1` (line 72 — the code's own comment records
that this tool signals success with status 1).  `none` models the
`AssertionError` raised for any other exit status. -/
def gem_indexer (ex : String → Bool) (fasta_chunk_id : Nat) (rc : Nat) :
    Option StageRun :=
  let key := "gem/" ++ toString fasta_chunk_id ++ ".gem"
  if ex key then some ⟨true, []⟩
  else if rc = 1 then some ⟨false, [key]⟩ else none

/-! ### Working-area lifecycle

Directory-level effects of each stage, as an action trace interpreted
over an explicit filesystem state; `try/finally` is embedded by
emitting the `finally` block's actions on both the success and the
raising path.
-/

/-- Directory-level filesystem actions. -/
inductive FsAct
  | mkdir (d : String)
  | chdir (d : String)
  | rmdir (d : String)
deriving DecidableEq

/-- Process working directory plus the set of existing scratch
directories. -/
structure Fs where
  cwd : String
  dirs : List String
deriving DecidableEq

/-- `tempfile.mkdtemp` / `os.chdir` / `force_delete_local_path`
(utils.py lines 126-131: delete only if present — `List.erase` is a
no-op on absent entries). -/
def runAct (s : Fs) : FsAct → Fs
  | .mkdir d => ⟨s.cwd, d :: s.dirs⟩
  | .chdir d => ⟨d, s.dirs⟩
  | .rmdir d => ⟨s.cwd, s.dirs.erase d⟩

/-- Interpret an action trace. -/
def runActs (s : Fs) (acts : List FsAct) : Fs :=
  acts.foldl runAct s

/-- `gem_indexer` compute path (lines 44-91): mkdtemp, chdir in; the
`finally` block restores `pwd` and deletes the temp dir on both exit
paths, so the trace is the same whether the body raises or not. -/
def gem_indexer_dir_trace (pwd tmp : String) : List FsAct :=
  [.mkdir tmp, .chdir tmp, .chdir pwd, .rmdir tmp]

/-- `align_mapper` compute path (lines 141-231): mkdtemp, chdir in; the
`finally` block (lines 230-231) only prints "Cleaning up" — it neither
restores the working directory nor deletes the temp dir, on either exit
path. -/
def align_mapper_dir_trace (pwd tmp : String) : List FsAct :=
  [.mkdir tmp, .chdir tmp]

/-- `index_correction` compute path (lines 276-347): two mkdtemps, a
`chdir` into the output dir mid-body (line 302, reached unless the body
raised earlier), an extra `chdir pwd` on the success path (line 339),
then the `finally` block (lines 344-347). -/
def index_correction_dir_trace (pwd inTmp outTmp : String)
    (reachedChdir raised : Bool) : List FsAct :=
  [.mkdir inTmp, .mkdir outTmp] ++
    (if reachedChdir then [.chdir outTmp] else []) ++
    (if raised then [] else [.chdir pwd]) ++
    [.chdir pwd, .rmdir inTmp, .rmdir outTmp]

/-- `filter_index_to_mpileup` (lines 350-502): the temp dir is created
(line 379) *before* the existence probe (line 398); the skip path
returns without entering the `try` whose `finally` (lines 500-502)
restores `pwd` and deletes the temp dir. -/
def filter_index_to_mpileup_dir_trace (pwd tmp : String)
    (outputExists : Bool) : List FsAct :=
  if outputExists then [.mkdir tmp]
  else [.mkdir tmp, .chdir tmp, .chdir pwd, .rmdir tmp]

/-! ## Helper lemmas about the balancer walk -/

theorem diLoop_isSome (MAX : Nat) :
    ∀ (cs : List (Nat × Nat)) (acc i : Nat) (wd : List Nat),
      ∃ st, diLoop MAX cs (acc, some i, wd) = some st := by
  intro cs
  induction cs with
  | nil => intro acc i wd; exact ⟨(acc, some i, wd), rfl⟩
  | cons kc rest ih =>
      intro acc i wd
      by_cases h : acc + kc.2 < MAX
      · obtain ⟨st, hst⟩ := ih (acc + kc.2) kc.1 wd
        exact ⟨st, by rw [diLoop]; simp [h]; exact hst⟩
      · obtain ⟨st, hst⟩ := ih 0 i (wd ++ [i])
        exact ⟨st, by rw [diLoop]; simp [h]; exact hst⟩

theorem diLoop_acc_lt (MAX : Nat) :
    ∀ (cs : List (Nat × Nat)) (st st' : Nat × Option Nat × List Nat),
      st.1 < MAX → diLoop MAX cs st = some st' → st'.1 < MAX := by
  intro cs
  induction cs with
  | nil =>
      intro st st' hlt h
      obtain ⟨acc, index, wd⟩ := st
      rw [diLoop] at h
      injection h with h
      exact h ▸ hlt
  | cons kc rest ih =>
      intro st st' hlt h
      obtain ⟨acc, index, wd⟩ := st
      obtain ⟨k, c⟩ := kc
      simp only [diLoop] at h
      by_cases hb : acc + c < MAX
      · simp only [hb, if_pos] at h
        exact ih _ _ hb h
      · simp only [hb, if_neg, not_false_iff] at h
        cases index with
        | none => exact absurd h (by simp)
        | some i =>
            have h' : diLoop MAX rest (0, some i, wd ++ [i]) = some st' := h
            exact ih _ _ (Nat.lt_of_le_of_lt (Nat.zero_le acc) hlt) h'

/-! ## Claim theorems -/

/-- C2 counterexample: on the mapping `{1:5, 2:5, 3:5, 4:5, 5:90}` with
the budget set to 10, the walk does **not** produce the boundaries
`[2, 5]` claimed by the spec's worked example. -/
theorem C2_example_counterexample :
    ¬ (diWalk 10 [(1,5),(2,5),(3,5),(4,5),(5,90)] = some [2, 5]) := by decide

/-- C2 (amended): on `{1:5, 2:5, 3:5, 4:5, 5:90}` with budget 10 the walk
produces `[1, 3, 3, 5]`: the strict `<` of line 142 closes a range
*before* the key that would reach the budget, that key's count is then
dropped from the accumulator entirely, and key 5 (over budget on its
own) re-appends the stale remembered boundary 3 before the final
`append(key)` adds 5. -/
theorem C2_example_boundaries :
    diWalk 10 [(1,5),(2,5),(3,5),(4,5),(5,90)] = some [1, 3, 3, 5] := by decide

/-- C4 counterexample: with keys 1, 2, 3 each counting 19 999 999
(budget 20 000 000), the produced boundaries are `[1, 3]`, and the
two-key range `(1, 3]` — not a single-key range — holds 39 999 998
records, exceeding the budget. -/
theorem C4_budget_overflow_counterexample :
    diWalk 20000000 [(1,19999999),(2,19999999),(3,19999999)] = some [1, 3] ∧
    rangesOf 1 [1, 3] = [(1, 1), (2, 3)] ∧
    ([(1,19999999),(2,19999999),(3,19999999)].filter
      (fun kc => decide (2 ≤ kc.1 ∧ kc.1 ≤ 3))).length = 2 ∧
    rangeCount [(1,19999999),(2,19999999),(3,19999999)] (2, 3) = 39999998 ∧
    20000000 < 39999998 := by
  refine ⟨by decide, by decide, by decide, by decide, by decide⟩

/-- C4 (amended): what stays strictly below the budget is the walk's
*running accumulator* `indexes`, not the record count of the emitted
ranges: every state the loop of lines 141-147 reaches from the initial
state (each such state is the loop's result on a prefix of the mapping)
has `indexes < MAX_INDEXES`.  Actual range record counts can exceed the
budget because a key that triggers a range close is dropped from the
accumulator while still falling inside the next range's interval. -/
theorem C4_accumulator_below_budget (counts : List (Nat × Nat))
    (st : Nat × Option Nat × List Nat)
    (h : diLoop 20000000 counts (0, none, []) = some st) :
    st.1 < 20000000 :=
  diLoop_acc_lt 20000000 counts (0, none, []) st (by decide) h

/-- Witness for C4: on the mapping `{1:5}` the loop ends with
accumulator 5, which is below the budget. -/
theorem C4_accumulator_below_budget_witness :
    diLoop 20000000 [(1,5)] (0, none, []) = some (5, some 1, []) ∧
    (5, some 1, ([] : List Nat)).1 < 20000000 :=
  ⟨by decide, C4_accumulator_below_budget [(1,5)] (5, some 1, []) (by decide)⟩

/-- C5 counterexample: on the non-empty mapping `{7: 20 000 000}` the
very first key's count reaches the budget, the `else` branch of line
145 reads the still-unassigned local `index`, and the walk raises
`NameError` (modelled `none`) instead of completing. -/
theorem C5_unguarded_first_key_counterexample :
    diWalk 20000000 [(7, 20000000)] = none := by decide

/-- C5 (amended): the walk completes without referencing the remembered
previous-range-end before assignment exactly when the *first* key's
count is strictly below the budget — the first iteration then takes the
`if` branch and assigns `index`, after which it stays assigned.  In
that case the boundary list is non-empty and (with the spec-modelled
range derivation) the first range starts at the passed domain minimum,
not at any previous-key sentinel. -/
theorem C5_first_key_guard (k c : Nat) (rest : List (Nat × Nat))
    (h : c < 20000000) :
    ∃ b bs, diWalk 20000000 ((k, c) :: rest) = some (b :: bs) ∧
      (rangesOf k (b :: bs)).head? = some (k, b) := by
  have hstep : diLoop 20000000 ((k, c) :: rest) (0, none, [])
      = diLoop 20000000 rest (c, some k, []) := by
    rw [diLoop]
    simp [Nat.zero_add, h]
  obtain ⟨st, hst⟩ := diLoop_isSome 20000000 rest c k []
  have hlast : ∃ kc, ((k, c) :: rest).getLast? = some kc := by
    cases hgl : ((k, c) :: rest).getLast? with
    | none => exact absurd hgl (by simp)
    | some kc => exact ⟨kc, rfl⟩
  obtain ⟨kc, hkc⟩ := hlast
  refine ⟨(st.2.2 ++ [kc.1]).head (by simp), (st.2.2 ++ [kc.1]).tail, ?_, ?_⟩
  · rw [diWalk, hstep, hst, hkc]
    simp [List.head_cons_tail]
  · rw [rangesOf]
    simp

/-- Witness for C5: mapping `{1:5}`, first count 5 below budget. -/
theorem C5_first_key_guard_witness :
    5 < 20000000 ∧
    (∃ b bs, diWalk 20000000 [(1, 5)] = some (b :: bs) ∧
      (rangesOf 1 (b :: bs)).head? = some (1, b)) :=
  ⟨by decide, C5_first_key_guard 1 5 [] (by decide)⟩

/-- C6 counterexample: one source key whose query yields no records —
the count mapping is empty, yet `distribute_indexes` does not return
zero boundaries: the trailing `workers_data.append(key)` of line 148
appends the dangling counting-loop variable, which at that point is the
last *source key string* of the loop at line 109, producing one
spurious (wrongly-typed) boundary. -/
theorem C6_empty_domain_counterexample :
    distribute_indexes [("src1", [])] = some [Sum.inr "src1"] ∧
    ¬ (distribute_indexes [("src1", [])] = some []) := by
  refine ⟨by decide, by decide⟩

/-- C6 (amended): for a non-empty source-key list whose queries yield no
records at all, `distribute_indexes` returns exactly one spurious
boundary holding the last source key (the leaked loop variable), not an
empty boundary list and not an error. -/
theorem C6_empty_domain_spurious_boundary (srcs : List (String × List Nat))
    (s : String × List Nat) (hlast : srcs.getLast? = some s)
    (hempty : (srcs.map Prod.snd).flatten = []) :
    distribute_indexes srcs = some [Sum.inr s.1] := by
  rw [distribute_indexes, hlast, hempty]
  simp [buildCounts, diLoop]

/-- Witness for C6: a single source key with an empty record stream. -/
theorem C6_empty_domain_spurious_boundary_witness :
    [("src2", ([] : List Nat))].getLast? = some ("src2", []) ∧
    ([("src2", ([] : List Nat))].map Prod.snd).flatten = [] ∧
    distribute_indexes [("src2", [])] = some [Sum.inr "src2"] :=
  ⟨by decide, by decide,
    C6_empty_domain_spurious_boundary [("src2", [])] ("src2", []) (by decide) (by decide)⟩

/-- C9: the code contradicts the spec's failure semantics in
`align_mapper`.  `gem_indexer` does raise on a non-success status (its
tool signals success with status 1, per the code's own comment): status
2 or 0 is an `AssertionError` (`none`), status 1 uploads.  But
`align_mapper` never inspects the exit status of its
map-index-and-filter script: with the script exiting 1 (non-zero) yet
leaving its output files behind, the stage uploads both artifacts and
returns a success result instead of failing. -/
theorem C9_exit_status_handling :
    gem_indexer (fun _ => false) 3 2 = none ∧
    gem_indexer (fun _ => false) 3 0 = none ∧
    gem_indexer (fun _ => false) 3 1 = some ⟨false, ["gem/3.gem"]⟩ ∧
    align_mapper (fun _ => false) "tmp" "run" "SRR000000" 0 0 1 true
      = some ⟨false, ["tmp/run/gem-mapper/fq0/fa0/SRR000000_map.index.txt.bz2",
                      "tmp/run/gem-mapper/fq0/fa0/SRR000000_filt_wline_no.map.bz2"]⟩ := by
  refine ⟨by decide, by decide, by decide, by decide⟩

theorem erase_after_two_mkdirs (inT outT : String) (ds : List String) :
    ((outT :: inT :: ds).erase inT).erase outT = ds := by
  by_cases h : outT = inT
  · subst h
    rw [List.erase_cons_head, List.erase_cons_head]
  · rw [List.erase_cons_tail (by simp [h]), List.erase_cons_head,
      List.erase_cons_head]

/-- C8: the working-area lifecycle of the four stage functions,
evaluated on both exit paths.  `gem_indexer`, `index_correction` and
`filter_index_to_mpileup`'s *compute* path restore the saved working
directory and delete their temp dirs as claimed; but `align_mapper`'s
`finally` block (lines 230-231) only prints — its temp dir survives and
the process stays chdir-ed inside it — and `filter_index_to_mpileup`
creates its temp dir *before* the existence probe, so the skip path
(output already present) leaks the freshly created dir. -/
theorem C8_workarea_lifecycle :
    ∀ (pwd inT outT tmp : String) (ds : List String) (rchd rsd : Bool),
      runActs ⟨pwd, ds⟩ (gem_indexer_dir_trace pwd tmp) = ⟨pwd, ds⟩ ∧
      runActs ⟨pwd, ds⟩ (index_correction_dir_trace pwd inT outT rchd rsd) = ⟨pwd, ds⟩ ∧
      runActs ⟨pwd, ds⟩ (filter_index_to_mpileup_dir_trace pwd tmp false) = ⟨pwd, ds⟩ ∧
      runActs ⟨pwd, ds⟩ (filter_index_to_mpileup_dir_trace pwd tmp true) = ⟨pwd, tmp :: ds⟩ ∧
      runActs ⟨pwd, ds⟩ (align_mapper_dir_trace pwd tmp) = ⟨tmp, tmp :: ds⟩ := by
  intro pwd inT outT tmp ds rchd rsd
  refine ⟨?_, ?_, ?_, ?_, ?_⟩
  · simp [runActs, gem_indexer_dir_trace, runAct, List.erase_cons_head]
  · cases rchd <;> cases rsd <;>
      simp [runActs, index_correction_dir_trace, runAct,
        erase_after_two_mkdirs]
  · simp [runActs, filter_index_to_mpileup_dir_trace, runAct,
      List.erase_cons_head]
  · simp [runActs, filter_index_to_mpileup_dir_trace, runAct]
  · simp [runActs, align_mapper_dir_trace, runAct]

/-- C7: `align_mapper` skips (returning immediately with zero uploads)
if and only if *both* of its deterministic output keys already exist;
when at least one of the two is missing — in particular when exactly
one exists — the stage recomputes and re-uploads **both** artifacts
(here under the assumption that the compute step produced its files, so
the upload lines are reached). -/
theorem C7_skip_iff_both_outputs_exist (ex : String → Bool)
    (tp rid sra : String) (faid fqid rc : Nat) (produced : Bool) :
    (ex (map_index_key tp rid fqid faid sra) = true ∧
        ex (filtered_map_key tp rid fqid faid sra) = true →
      align_mapper ex tp rid sra faid fqid rc produced = some ⟨true, []⟩) ∧
    (¬ (ex (map_index_key tp rid fqid faid sra) = true ∧
        ex (filtered_map_key tp rid fqid faid sra) = true) →
      align_mapper ex tp rid sra faid fqid rc true
        = some ⟨false, [map_index_key tp rid fqid faid sra,
                        filtered_map_key tp rid fqid faid sra]⟩) := by
  constructor
  · rintro ⟨h1, h2⟩
    rw [align_mapper]
    simp [h1, h2]
  · intro hnot
    rw [align_mapper]
    by_cases h1 : ex (map_index_key tp rid fqid faid sra) = true
    · have h2 : ¬ ex (filtered_map_key tp rid fqid faid sra) = true :=
        fun h2 => hnot ⟨h1, h2⟩
      simp [h1, h2]
    · simp [h1]

/-- Witness for C7: with only the map-index artifact present the stage
recomputes and uploads both keys; with both present it skips. -/
theorem C7_skip_iff_both_outputs_exist_witness :
    align_mapper (fun k => decide (k = map_index_key "t" "r" 0 0 "s"))
        "t" "r" "s" 0 0 7 true
      = some ⟨false, [map_index_key "t" "r" 0 0 "s",
                      filtered_map_key "t" "r" 0 0 "s"]⟩ ∧
    align_mapper (fun _ => true) "t" "r" "s" 0 0 7 false
      = some ⟨true, []⟩ :=
  ⟨(C7_skip_iff_both_outputs_exist
      (fun k => decide (k = map_index_key "t" "r" 0 0 "s"))
      "t" "r" "s" 0 0 7 true).2 (by decide),
   (C7_skip_iff_both_outputs_exist (fun _ => true)
      "t" "r" "s" 0 0 7 false).1 (by decide)⟩

/-! ## Helper lemmas about the completion scan -/

theorem scanParts_group (m : String) :
    ∀ (g rest : List UploadPart),
      (∀ p ∈ g, p.mpu_id = m) →
      (∀ p, rest.head? = some p → ¬ p.mpu_id = m) →
      scanParts m (g ++ rest)
        = (g.map (fun p => (p.PartNumber, p.ETag)), g.length) := by
  intro g
  induction g with
  | nil =>
      intro rest _ hrest
      cases rest with
      | nil => simp [scanParts]
      | cons p ps =>
          have hp := hrest p rfl
          simp [scanParts, hp]
  | cons p g' ih =>
      intro rest hg hrest
      have hp : p.mpu_id = m := hg p (by simp)
      have hg' : ∀ q ∈ g', q.mpu_id = m := fun q hq => hg q (by simp [hq])
      rw [List.cons_append, scanParts]
      simp only [hp, if_pos]
      rw [ih rest hg' hrest]
      simp

theorem scanParts_all (m : String) (parts : List UploadPart)
    (h : ∀ p ∈ parts, p.mpu_id = m) :
    scanParts m parts = (parts.map (fun p => (p.PartNumber, p.ETag)), parts.length) := by
  have := scanParts_group m parts [] h (by simp)
  simpa using this

theorem cmLoop_grouped :
    ∀ (groups : List (String × String × List UploadPart)),
      (∀ g ∈ groups, g.2.2 ≠ [] ∧ ∀ p ∈ g.2.2, p.mpu_id = g.2.1) →
      (groups.map (fun g => g.2.1)).Pairwise (· ≠ ·) →
      cmLoop (groups.map (fun g => (g.1, g.2.1)))
          ((groups.map (fun g => g.2.2)).flatten)
        = groups.map (fun g =>
            (g.1, g.2.1, g.2.2.map (fun p => (p.PartNumber, p.ETag)))) := by
  intro groups
  induction groups with
  | nil => intro _ _; simp [cmLoop]
  | cons g gs ih =>
      intro hg hpw
      obtain ⟨hne, hmem⟩ := hg g (by simp)
      have hgs : ∀ g' ∈ gs, g'.2.2 ≠ [] ∧ ∀ p ∈ g'.2.2, p.mpu_id = g'.2.1 :=
        fun g' hg' => hg g' (by simp [hg'])
      have hpw' : (gs.map (fun g => g.2.1)).Pairwise (· ≠ ·) :=
        (List.pairwise_cons.mp hpw).2
      have hhead : ∀ p, ((gs.map (fun g => g.2.2)).flatten).head? = some p →
          ¬ p.mpu_id = g.2.1 := by
        intro p hp
        cases gs with
        | nil => simp at hp
        | cons g' gs' =>
            obtain ⟨hne', hmem'⟩ := hgs g' (by simp)
            have hdistinct : g.2.1 ≠ g'.2.1 :=
              (List.pairwise_cons.mp hpw).1 g'.2.1 (by simp)
            cases hq : g'.2.2 with
            | nil => exact absurd hq hne'
            | cons q qs =>
                rw [List.map_cons, List.flatten_cons, hq, List.cons_append,
                  List.head?_cons] at hp
                injection hp with hp
                have hqmem : q.mpu_id = g'.2.1 := hmem' q (by simp [hq])
                rw [← hp, hqmem]
                exact fun hc => hdistinct hc.symm
      rw [List.map_cons, List.map_cons, List.flatten_cons, cmLoop]
      simp only [scanParts_group g.2.1 g.2.2 _ hmem hhead]
      rw [List.drop_left]
      rw [ih hgs hpw']
      simp

/-- C1 counterexample: the spec's own §8 arrival order
`[U1P1, U2P1, U1P2, U3P1, U2P2, U3P2]` over three uploads of two parts
each.  The contiguous-prefix scan (`else: break`, lines 211-212 /
240-241) finalizes U1 with only part 1, U2 with only part 1, and U3
with **no parts at all**, instead of each upload's two parts. -/
theorem C1_interleaved_counterexample :
    complete_multipart ["k1", "k2", "k3"] ["U1", "U2", "U3"]
        [⟨1, "a", "U1"⟩, ⟨1, "b", "U2"⟩, ⟨2, "c", "U1"⟩,
         ⟨1, "d", "U3"⟩, ⟨2, "e", "U2"⟩, ⟨2, "f", "U3"⟩]
      = [("k1", "U1", [(1, "a")]), ("k2", "U2", [(1, "b")]),
         ("k3", "U3", [])] ∧
    ¬ (complete_multipart ["k1", "k2", "k3"] ["U1", "U2", "U3"]
        [⟨1, "a", "U1"⟩, ⟨1, "b", "U2"⟩, ⟨2, "c", "U1"⟩,
         ⟨1, "d", "U3"⟩, ⟨2, "e", "U2"⟩, ⟨2, "f", "U3"⟩]
      = [("k1", "U1", [(1, "a"), (2, "c")]), ("k2", "U2", [(1, "b"), (2, "e")]),
         ("k3", "U3", [(1, "d"), (2, "f")])]) := by
  refine ⟨by decide, by decide⟩

/-- C1 (amended): the completion step finalizes each upload with exactly
its own parts in ascending part-number order only when the collected
parts list is already grouped by `upload_id` — each upload's parts
contiguous, groups in the same order as the `(keys, mpu_ids)` zip, the
upload ids distinct, and each group already in ascending part-number
(arrival) order.  Under those conditions `complete_multipart` issues
exactly one completion request per upload carrying its group's
`(part_number, etag)` pairs in order, and `finish` does the same for a
single upload whose parts all carry its `upload_id`. -/
theorem C1_grouped_completion (groups : List (String × String × List UploadPart))
    (hg : ∀ g ∈ groups, g.2.2 ≠ [] ∧ ∀ p ∈ g.2.2, p.mpu_id = g.2.1)
    (hpw : (groups.map (fun g => g.2.1)).Pairwise (· ≠ ·))
    (hsorted : ∀ g ∈ groups, (g.2.2.map UploadPart.PartNumber).Sorted (· < ·)) :
    complete_multipart (groups.map (fun g => g.1)) (groups.map (fun g => g.2.1))
        ((groups.map (fun g => g.2.2)).flatten)
      = groups.map (fun g =>
          (g.1, g.2.1, g.2.2.map (fun p => (p.PartNumber, p.ETag)))) ∧
    (∀ g ∈ groups,
      ((g.2.2.map (fun p => (p.PartNumber, p.ETag))).map Prod.fst).Sorted (· < ·)) ∧
    (∀ (key m : String) (parts : List UploadPart), (∀ p ∈ parts, p.mpu_id = m) →
      finish key m parts = (key, m, parts.map (fun p => (p.PartNumber, p.ETag)))) := by
  refine ⟨?_, ?_, ?_⟩
  · rw [complete_multipart, List.zip_map']
    exact cmLoop_grouped groups hg hpw
  · intro g hgmem
    have := hsorted g hgmem
    simpa [List.map_map, Function.comp] using this
  · intro key m parts hparts
    rw [finish, scanParts_all m parts hparts]

/-- Witness for C1: the spec's three uploads of two parts each, with the
parts pre-grouped by upload id; and a single-upload `finish`. -/
theorem C1_grouped_completion_witness :
    complete_multipart ["k1", "k2", "k3"] ["U1", "U2", "U3"]
        [⟨1, "a", "U1"⟩, ⟨2, "c", "U1"⟩, ⟨1, "b", "U2"⟩,
         ⟨2, "e", "U2"⟩, ⟨1, "d", "U3"⟩, ⟨2, "f", "U3"⟩]
      = [("k1", "U1", [(1, "a"), (2, "c")]), ("k2", "U2", [(1, "b"), (2, "e")]),
         ("k3", "U3", [(1, "d"), (2, "f")])] ∧
    finish "k1" "U1" [⟨1, "a", "U1"⟩, ⟨2, "c", "U1"⟩]
      = ("k1", "U1", [(1, "a"), (2, "c")]) := by
  refine ⟨?_, ?_⟩
  · exact (C1_grouped_completion
      [("k1", "U1", [⟨1, "a", "U1"⟩, ⟨2, "c", "U1"⟩]),
       ("k2", "U2", [⟨1, "b", "U2"⟩, ⟨2, "e", "U2"⟩]),
       ("k3", "U3", [⟨1, "d", "U3"⟩, ⟨2, "f", "U3"⟩])]
      (by decide) (by decide) (by decide)).1
  · exact (C1_grouped_completion [] (by decide) (by decide) (by decide)).2.2
      "k1" "U1" [⟨1, "a", "U1"⟩, ⟨2, "c", "U1"⟩] (by decide)

/-! ## Helper lemmas for partition coverage -/

theorem sorted_le_getLast? :
    ∀ (l : List Nat) (m : Nat), l.Sorted (· < ·) → l.getLast? = some m →
      ∀ x ∈ l, x ≤ m := by
  intro l
  induction l with
  | nil => intro m _ h; simp at h
  | cons a t ih =>
      intro m hs hlast x hx
      cases t with
      | nil =>
          simp at hlast
          simp at hx
          omega
      | cons b t' =>
          rw [List.getLast?_cons_cons] at hlast
          rcases List.mem_cons.mp hx with hxa | hxt
          · have hm : m ∈ b :: t' := List.mem_of_mem_getLast? hlast
            have : a < m := (List.sorted_cons.mp hs).1 m hm
            omega
          · exact ih m (List.sorted_cons.mp hs).2 hlast x hxt

theorem countP_rangesOf_zero :
    ∀ (bs : List Nat) (s key : Nat), key < s → (∀ b ∈ bs, key ≤ b) →
      (rangesOf s bs).countP (fun r => decide (r.1 ≤ key ∧ key ≤ r.2)) = 0 := by
  intro bs
  induction bs with
  | nil => intro s key _ _; rfl
  | cons b rest ih =>
      intro s key hks hall
      rw [rangesOf, List.countP_cons]
      have h1 : (decide ((s, b).1 ≤ key ∧ key ≤ (s, b).2)) = false := by
        simp only [decide_eq_false_iff_not]
        omega
      have hlt : key < b + 1 := Nat.lt_succ_of_le (hall b (by simp))
      have hrest : ∀ b' ∈ rest, key ≤ b' := fun b' hb' => hall b' (by simp [hb'])
      rw [h1, ih (b + 1) key hlt hrest]
      simp

theorem countP_rangesOf_one :
    ∀ (bs : List Nat) (s key m : Nat), bs.Sorted (· ≤ ·) → bs.getLast? = some m →
      s ≤ key → key ≤ m →
      (rangesOf s bs).countP (fun r => decide (r.1 ≤ key ∧ key ≤ r.2)) = 1 := by
  intro bs
  induction bs with
  | nil => intro s key m _ h _ _; simp at h
  | cons b rest ih =>
      intro s key m hs hlast hsk hkm
      rw [rangesOf, List.countP_cons]
      by_cases hkb : key ≤ b
      · have h1 : (decide ((s, b).1 ≤ key ∧ key ≤ (s, b).2)) = true := by
          simp only [decide_eq_true_eq]
          exact ⟨hsk, hkb⟩
        have hz := countP_rangesOf_zero rest (b + 1) key (Nat.lt_succ_of_le hkb)
          (fun b' hb' => le_trans hkb ((List.sorted_cons.mp hs).1 b' hb'))
        rw [h1, hz]
        simp
      · have h1 : (decide ((s, b).1 ≤ key ∧ key ≤ (s, b).2)) = false := by
          simp only [decide_eq_false_iff_not]
          omega
        cases rest with
        | nil =>
            simp at hlast
            exact absurd (by omega : key ≤ b) hkb
        | cons b' rest' =>
            rw [List.getLast?_cons_cons] at hlast
            have := ih (b + 1) key m (List.sorted_cons.mp hs).2 hlast
              (by omega) hkm
            rw [h1, this]
            simp

theorem rangesOf_chain :
    ∀ (bs : List Nat) (s : Nat),
      (rangesOf s bs).Chain' (fun r q => q.1 = r.2 + 1) := by
  intro bs
  induction bs with
  | nil => intro s; simp [rangesOf]
  | cons b rest ih =>
      intro s
      rw [rangesOf]
      cases rest with
      | nil => simp [rangesOf]
      | cons b' rest' =>
          rw [rangesOf]
          refine List.chain'_cons.mpr ⟨rfl, ?_⟩
          have := ih (b + 1)
          rw [rangesOf] at this
          exact this

theorem sum_map_add (l : List (Nat × Nat)) (f g : Nat × Nat → Nat) :
    (l.map (fun x => f x + g x)).sum = (l.map f).sum + (l.map g).sum := by
  induction l with
  | nil => rfl
  | cons a t ih =>
      simp only [List.map_cons, List.sum_cons, ih]
      omega

theorem filter_sum_eq (p : Nat × Nat → Bool) :
    ∀ (counts : List (Nat × Nat)),
      ((counts.filter p).map Prod.snd).sum
        = (counts.map (fun kc => if p kc then kc.2 else 0)).sum := by
  intro counts
  induction counts with
  | nil => rfl
  | cons kc rest ih =>
      by_cases h : p kc
      · simp [List.filter_cons, h, ih]
      · simp [List.filter_cons, h, ih]

theorem sum_interchange :
    ∀ (rs : List (Nat × Nat)) (counts : List (Nat × Nat)),
      (rs.map (rangeCount counts)).sum
        = (counts.map (fun kc =>
            (rs.countP (fun r => decide (r.1 ≤ kc.1 ∧ kc.1 ≤ r.2))) * kc.2)).sum := by
  intro rs
  induction rs with
  | nil => intro counts; simp
  | cons r rs' ih =>
      intro counts
      rw [List.map_cons, List.sum_cons, ih]
      have hsplit : ∀ kc ∈ counts,
          ((r :: rs').countP (fun q => decide (q.1 ≤ kc.1 ∧ kc.1 ≤ q.2))) * kc.2
          = (if decide (r.1 ≤ kc.1 ∧ kc.1 ≤ r.2) then kc.2 else 0)
            + (rs'.countP (fun q => decide (q.1 ≤ kc.1 ∧ kc.1 ≤ q.2))) * kc.2 := by
        intro kc _
        rw [List.countP_cons]
        by_cases h : (decide (r.1 ≤ kc.1 ∧ kc.1 ≤ r.2)) = true
        · rw [h]
          simp [Nat.add_mul]
          omega
        · rw [eq_false_of_ne_true h]
          simp
      rw [List.map_congr_left hsplit, sum_map_add, ← filter_sum_eq, rangeCount]

theorem getLast?_fst :
    ∀ (l : List (Nat × Nat)) (kc : Nat × Nat), l.getLast? = some kc →
      (l.map Prod.fst).getLast? = some kc.1 := by
  intro l
  induction l with
  | nil => intro kc h; simp at h
  | cons a t ih =>
      intro kc h
      cases t with
      | nil =>
          simp at h
          simp [h]
      | cons b t' =>
          rw [List.getLast?_cons_cons] at h
          rw [List.map_cons, List.map_cons, List.getLast?_cons_cons]
          exact ih kc h

theorem diLoop_struct (MAX : Nat) :
    ∀ (cs : List (Nat × Nat)) (acc i : Nat) (wd : List Nat),
      (∀ b ∈ wd, b ≤ i) → wd.Sorted (· ≤ ·) → (∀ q ∈ cs, i < q.1) →
      (cs.map Prod.fst).Sorted (· < ·) →
      ∃ acc' i' wd', diLoop MAX cs (acc, some i, wd) = some (acc', some i', wd') ∧
        (∀ b ∈ wd', b ≤ i') ∧ wd'.Sorted (· ≤ ·) ∧
        (i' = i ∨ i' ∈ cs.map Prod.fst) := by
  intro cs
  induction cs with
  | nil =>
      intro acc i wd hle hsort _ _
      exact ⟨acc, i, wd, rfl, hle, hsort, Or.inl rfl⟩
  | cons kc rest ih =>
      intro acc i wd hle hsort hkeys hksorted
      obtain ⟨k, c⟩ := kc
      have hik : i < k := hkeys (k, c) (by simp)
      have hks' : (rest.map Prod.fst).Sorted (· < ·) :=
        (List.sorted_cons.mp hksorted).2
      by_cases hb : acc + c < MAX
      · have hstep : diLoop MAX ((k, c) :: rest) (acc, some i, wd)
            = diLoop MAX rest (acc + c, some k, wd) := by
          rw [diLoop]
          simp [hb]
        have hle' : ∀ b ∈ wd, b ≤ k :=
          fun b hbm => le_trans (hle b hbm) (Nat.le_of_lt hik)
        have hkeys' : ∀ q ∈ rest, k < q.1 := by
          intro q hq
          exact (List.sorted_cons.mp hksorted).1 q.1 (List.mem_map_of_mem Prod.fst hq)
        obtain ⟨acc', i', wd', heq, h1, h2, h3⟩ :=
          ih (acc + c) k wd hle' hsort hkeys' hks'
        refine ⟨acc', i', wd', hstep ▸ heq, h1, h2, Or.inr ?_⟩
        rw [List.map_cons]
        rcases h3 with h3 | h3
        · simp [h3]
        · exact List.mem_cons_of_mem _ h3
      · have hstep : diLoop MAX ((k, c) :: rest) (acc, some i, wd)
            = diLoop MAX rest (0, some i, wd ++ [i]) := by
          rw [diLoop]
          simp [hb]
        have hle' : ∀ b ∈ wd ++ [i], b ≤ i := by
          intro b hbm
          rcases List.mem_append.mp hbm with h | h
          · exact hle b h
          · simp at h
            omega
        have hsort' : (wd ++ [i]).Sorted (· ≤ ·) := by
          apply List.pairwise_append.mpr
          refine ⟨hsort, List.pairwise_singleton _ _, ?_⟩
          intro b hbm y hy
          simp at hy
          subst hy
          exact hle b hbm
        obtain ⟨acc', i', wd', heq, h1, h2, h3⟩ :=
          ih 0 i (wd ++ [i]) hle' hsort'
            (fun q hq => hkeys q (by simp [hq])) hks'
        refine ⟨acc', i', wd', hstep ▸ heq, h1, h2, ?_⟩
        rcases h3 with h3 | h3
        · exact Or.inl h3
        · exact Or.inr (by simp [h3])

/-- C3 counterexample: two source records with keys arriving in the
order 5 then 1.  Dict insertion order is first-appearance order, not
the sorted domain, so the walk iterates 5 before 1 and the final
`append(key)` closes at 1: the single range `[1, 1]` (starting at the
domain minimum 1) holds only 1 of the 2 input records — key 5's record
is outside every produced range. -/
theorem C3_unsorted_arrival_counterexample :
    buildCounts [5, 1] = [(5, 1), (1, 1)] ∧
    diWalk 20000000 (buildCounts [5, 1]) = some [1] ∧
    ((rangesOf 1 [1]).map (rangeCount (buildCounts [5, 1]))).sum = 1 ∧
    ((buildCounts [5, 1]).map Prod.snd).sum = 2 ∧
    (1 : Nat) ≠ 2 := by
  refine ⟨by decide, by decide, by decide, by decide, by decide⟩

/-- C3 (amended): the coverage property holds only when the accumulated
mapping's iteration (insertion) order is *ascending by key* — i.e. the
walk happens to visit the sorted key domain — and the first key's count
is below the budget (else the walk raises, claim C5).  Then the
spec-modelled ranges derived from the boundary list are contiguous
(each range starts one past the previous end), every observed key lies
in exactly one range, and the range record counts sum to the total
input count.  The code itself walks dict insertion order, so with
unsorted arrival keys can fall outside every range (see the
counterexample). -/
theorem C3_sorted_coverage (k c : Nat) (rest : List (Nat × Nat))
    (hsorted : (((k, c) :: rest).map Prod.fst).Sorted (· < ·))
    (hc : c < 20000000) :
    ∃ bs, diWalk 20000000 ((k, c) :: rest) = some bs ∧
      (rangesOf k bs).Chain' (fun r q => q.1 = r.2 + 1) ∧
      (∀ key ∈ ((k, c) :: rest).map Prod.fst,
        (rangesOf k bs).countP (fun r => decide (r.1 ≤ key ∧ key ≤ r.2)) = 1) ∧
      ((rangesOf k bs).map (rangeCount ((k, c) :: rest))).sum
        = (((k, c) :: rest).map Prod.snd).sum := by
  have hstep : diLoop 20000000 ((k, c) :: rest) (0, none, [])
      = diLoop 20000000 rest (c, some k, []) := by
    rw [diLoop]
    simp [Nat.zero_add, hc]
  have hks' : (rest.map Prod.fst).Sorted (· < ·) := (List.sorted_cons.mp hsorted).2
  have hkeys : ∀ q ∈ rest, k < q.1 :=
    fun q hq => (List.sorted_cons.mp hsorted).1 q.1 (List.mem_map_of_mem Prod.fst hq)
  obtain ⟨acc', i', wd', heq, h1, h2, h3⟩ :=
    diLoop_struct 20000000 rest c k [] (by simp) (by simp) hkeys hks'
  obtain ⟨kc, hkc⟩ : ∃ kc, ((k, c) :: rest).getLast? = some kc :=
    ⟨_, List.getLast?_eq_getLast_of_ne_nil (by simp)⟩
  have hkn : (((k, c) :: rest).map Prod.fst).getLast? = some kc.1 :=
    getLast?_fst _ kc hkc
  have hi'mem : i' ∈ ((k, c) :: rest).map Prod.fst := by
    rw [List.map_cons]
    rcases h3 with h3 | h3
    · simp [h3]
    · exact List.mem_cons_of_mem _ h3
  have hi'le : i' ≤ kc.1 := sorted_le_getLast? _ kc.1 hsorted hkn i' hi'mem
  have hdiwalk : diWalk 20000000 ((k, c) :: rest) = some (wd' ++ [kc.1]) := by
    rw [diWalk, hstep, heq, hkc]
  have hsortbs : (wd' ++ [kc.1]).Sorted (· ≤ ·) := by
    apply List.pairwise_append.mpr
    refine ⟨h2, List.pairwise_singleton _ _, ?_⟩
    intro b hbm y hy
    simp at hy
    subst hy
    exact le_trans (h1 b hbm) hi'le
  have hlastbs : (wd' ++ [kc.1]).getLast? = some kc.1 := List.getLast?_concat _
  have hcount : ∀ key ∈ ((k, c) :: rest).map Prod.fst,
      (rangesOf k (wd' ++ [kc.1])).countP
        (fun r => decide (r.1 ≤ key ∧ key ≤ r.2)) = 1 := by
    intro key hkey
    have hkle : k ≤ key := by
      rw [List.map_cons] at hkey
      rcases List.mem_cons.mp hkey with h | h
      · omega
      · exact Nat.le_of_lt ((List.sorted_cons.mp hsorted).1 key h)
    have hkeyle : key ≤ kc.1 := sorted_le_getLast? _ kc.1 hsorted hkn key hkey
    exact countP_rangesOf_one (wd' ++ [kc.1]) k key kc.1 hsortbs hlastbs hkle hkeyle
  refine ⟨wd' ++ [kc.1], hdiwalk, rangesOf_chain (wd' ++ [kc.1]) k, hcount, ?_⟩
  rw [sum_interchange]
  have hone : ∀ q ∈ ((k, c) :: rest),
      ((rangesOf k (wd' ++ [kc.1])).countP
        (fun r => decide (r.1 ≤ q.1 ∧ q.1 ≤ r.2))) * q.2 = q.2 := by
    intro q hm
    rw [hcount q.1 (List.mem_map_of_mem Prod.fst hm), Nat.one_mul]
  rw [List.map_congr_left hone]

/-- Witness for C3: the mapping `{1:2, 2:3}` accumulated in ascending
order, first count 2 below the budget. -/
theorem C3_sorted_coverage_witness :
    ([(1, 2), (2, 3)].map Prod.fst).Sorted (· < ·) ∧ 2 < 20000000 ∧
    (∃ bs, diWalk 20000000 [(1, 2), (2, 3)] = some bs ∧
      (rangesOf 1 bs).Chain' (fun r q => q.1 = r.2 + 1) ∧
      (∀ key ∈ [(1, 2), (2, 3)].map Prod.fst,
        (rangesOf 1 bs).countP (fun r => decide (r.1 ≤ key ∧ key ≤ r.2)) = 1) ∧
      ((rangesOf 1 bs).map (rangeCount [(1, 2), (2, 3)])).sum
        = ([(1, 2), (2, 3)].map Prod.snd).sum) :=
  ⟨by decide, by decide, C3_sorted_coverage 1 2 [(2, 3)] (by decide) (by decide)⟩

/-! ## Helper lemmas for key grouping -/

theorem addToGroup_flatten_perm :
    ∀ (d : List (Char × List (List Char))) (c : Char) (k : List Char),
      (((addToGroup d c k).map Prod.snd).flatten).Perm
        (((d.map Prod.snd).flatten) ++ [k]) := by
  intro d
  induction d with
  | nil => intro c k; simp [addToGroup]
  | cons g0 rest ih =>
      intro c k
      obtain ⟨a, ks⟩ := g0
      rw [addToGroup]
      by_cases h : a = c
      · rw [if_pos h]
        simp only [List.map_cons, List.flatten_cons]
        rw [List.append_assoc ks [k] ((rest.map Prod.snd).flatten),
          List.append_assoc ks ((rest.map Prod.snd).flatten) [k]]
        exact List.Perm.append_left ks List.perm_append_comm
      · rw [if_neg h]
        simp only [List.map_cons, List.flatten_cons]
        rw [List.append_assoc ks ((rest.map Prod.snd).flatten) [k]]
        exact List.Perm.append_left ks (ih c k)

theorem kbfsLoop_perm :
    ∀ (keys : List (List Char)) (d res : List (Char × List (List Char))),
      kbfsLoop keys d = some res →
      ((res.map Prod.snd).flatten).Perm (((d.map Prod.snd).flatten) ++ keys) := by
  intro keys
  induction keys with
  | nil =>
      intro d res h
      rw [kbfsLoop] at h
      injection h with h
      subst h
      simp
  | cons k rest ih =>
      intro d res h
      rw [kbfsLoop] at h
      cases hg : keyGroupId k with
      | none => rw [hg] at h; exact absurd h (by simp)
      | some c =>
          rw [hg] at h
          refine (ih (addToGroup d c k) res h).trans ?_
          refine ((addToGroup_flatten_perm d c k).append_right rest).trans ?_
          rw [List.append_assoc, List.singleton_append]

theorem addToGroup_inv :
    ∀ (d : List (Char × List (List Char))) (c : Char) (k : List Char),
      (∀ g ∈ d, ∀ k' ∈ g.2, keyGroupId k' = some g.1) →
      keyGroupId k = some c →
      ∀ g ∈ addToGroup d c k, ∀ k' ∈ g.2, keyGroupId k' = some g.1 := by
  intro d
  induction d with
  | nil =>
      intro c k _ hk g hg k' hk'
      simp [addToGroup] at hg
      subst hg
      simp at hk'
      subst hk'
      exact hk
  | cons g0 rest ih =>
      intro c k hinv hk g hg k' hk'
      obtain ⟨a, ks⟩ := g0
      rw [addToGroup] at hg
      by_cases h : a = c
      · rw [if_pos h] at hg
        rcases List.mem_cons.mp hg with hgh | hgt
        · subst hgh
          rcases List.mem_append.mp hk' with hm | hm
          · exact hinv (a, ks) (by simp) k' hm
          · simp at hm
            subst hm
            rw [h]
            exact hk
        · exact hinv _ (List.mem_cons_of_mem _ hgt) k' hk'
      · rw [if_neg h] at hg
        rcases List.mem_cons.mp hg with hgh | hgt
        · subst hgh
          exact hinv (a, ks) (by simp) k' hk'
        · exact ih c k (fun g' hg' => hinv g' (List.mem_cons_of_mem _ hg'))
            hk g hgt k' hk'

theorem kbfsLoop_inv :
    ∀ (keys : List (List Char)) (d res : List (Char × List (List Char))),
      (∀ g ∈ d, ∀ k' ∈ g.2, keyGroupId k' = some g.1) →
      kbfsLoop keys d = some res →
      ∀ g ∈ res, ∀ k' ∈ g.2, keyGroupId k' = some g.1 := by
  intro keys
  induction keys with
  | nil =>
      intro d res hinv h
      rw [kbfsLoop] at h
      injection h with h
      subst h
      exact hinv
  | cons k rest ih =>
      intro d res hinv h
      rw [kbfsLoop] at h
      cases hg : keyGroupId k with
      | none => rw [hg] at h; exact absurd h (by simp)
      | some c =>
          rw [hg] at h
          exact ih (addToGroup d c k) res (addToGroup_inv d c k hinv hg) h

theorem kbfsLoop_isSome :
    ∀ (keys : List (List Char)) (d : List (Char × List (List Char))),
      (∀ k ∈ keys, (keyGroupId k).isSome) →
      ∃ res, kbfsLoop keys d = some res := by
  intro keys
  induction keys with
  | nil => intro d _; exact ⟨d, rfl⟩
  | cons k rest ih =>
      intro d hall
      have hk := hall k (by simp)
      cases hg : keyGroupId k with
      | none => rw [hg] at hk; simp at hk
      | some c =>
          obtain ⟨res, hres⟩ :=
            ih (addToGroup d c k) (fun k' hk' => hall k' (by simp [hk']))
          exact ⟨res, by rw [kbfsLoop, hg]; exact hres⟩

/-- C10 counterexample: the key `"a/bfa"` — its final segment ends with
`"fa"`, so `split("fa")[-1]` is the empty string and the `[0]` of line
264 raises `IndexError`: the key is placed in *no* group and the whole
call fails, refuting the for-every-list claim. -/
theorem C10_trailing_fa_counterexample :
    keys_by_fasta_split ["a/bfa".toList] = none ∧
    keyGroupId ("a/bfa".toList) = none := by
  refine ⟨by decide, by decide⟩

/-- C10 (amended): for every list of keys in which each key's group
identifier is defined — the piece of the final path segment after the
last `"fa"` occurrence (the whole segment when `"fa"` does not occur)
is non-empty — `keys_by_fasta_split` places each key into exactly one
group (the concatenation of the group values is a permutation of the
input list), and the group identifier is the *first character* of that
piece: `fa10` and `fa1` land in the same group `'1'`, and a key with no
`"fa"` at all is grouped under the first character of its final
segment.  A key whose final segment ends in `"fa"` makes the whole call
raise instead (see the counterexample). -/
theorem C10_grouping (keys : List (List Char))
    (h : ∀ k ∈ keys, (keyGroupId k).isSome) :
    (∃ d, keys_by_fasta_split keys = some d ∧
      ((d.map Prod.snd).flatten).Perm keys ∧
      (∀ g ∈ d, ∀ k ∈ g.2, keyGroupId k = some g.1)) ∧
    keyGroupId ("x/fa10.out".toList) = some '1' ∧
    keyGroupId ("x/fa1.out".toList) = some '1' ∧
    keyGroupId ("x/chunk.out".toList) = some 'c' := by
  refine ⟨?_, by decide, by decide, by decide⟩
  obtain ⟨res, hres⟩ := kbfsLoop_isSome keys [] h
  refine ⟨res, hres, ?_, kbfsLoop_inv keys [] res (by simp) hres⟩
  have := kbfsLoop_perm keys [] res hres
  simpa using this

/-- Witness for C10: three well-formed keys, two of which (`fa1`,
`fa10`) share the group `'1'`. -/
theorem C10_grouping_witness :
    (∀ k ∈ [("p/fa1.s".toList), ("p/fa2.s".toList), ("q/fa10.s".toList)],
      (keyGroupId k).isSome) ∧
    ((∃ d, keys_by_fasta_split
        [("p/fa1.s".toList), ("p/fa2.s".toList), ("q/fa10.s".toList)] = some d ∧
      ((d.map Prod.snd).flatten).Perm
        [("p/fa1.s".toList), ("p/fa2.s".toList), ("q/fa10.s".toList)] ∧
      (∀ g ∈ d, ∀ k ∈ g.2, keyGroupId k = some g.1)) ∧
    keyGroupId ("x/fa10.out".toList) = some '1' ∧
    keyGroupId ("x/fa1.out".toList) = some '1' ∧
    keyGroupId ("x/chunk.out".toList) = some 'c') :=
  ⟨by decide,
   C10_grouping [("p/fa1.s".toList), ("p/fa2.s".toList), ("q/fa10.s".toList)]
     (by decide)⟩

end SG
